import Mathlib

/-!
Verification of the polyglotai text-preparation core.

Python strings are modelled as `List Char` (one entry per Unicode scalar
value, matching Python's code-point indexing and `len`).  External library
behaviour (Python's `unicodedata`, the Unicode character database behind
`str.isalpha`/`str.isdigit`, `re` escape validation, `hashlib.sha1`) is
modelled explicitly: NFKC is implemented by the standard
decompose/reorder/compose algorithm over a character table restricted to the
repertoire exercised here, character classifications are parameters, and the
SHA-1 digest is an abstract function parameter.  Everything else is a direct
translation of the sources in `scripts/`.
-/

namespace Polyglot

/-- Python `str` modelled as a list of Unicode scalar values. -/
abbrev PyStr := List Char

/-- Whitespace as recognised by Python's `str.split` / `str.strip` / `re \s`,
restricted to the ASCII repertoire exercised in this development. -/
def pyIsSpace (c : Char) : Bool :=
  c = ' ' || c = '\t' || c = '\n' || c = '\r' || c = '\x0b' || c = '\x0c'

/-- Python `s.split()`: split on runs of whitespace, dropping empty pieces. -/
def pySplit (s : PyStr) : List PyStr :=
  (s.splitOnP pyIsSpace).filter (fun w => w ≠ [])

/-- Python `s.strip()`: remove leading and trailing whitespace. -/
def pyStrip (s : PyStr) : PyStr :=
  ((s.dropWhile pyIsSpace).reverse.dropWhile pyIsSpace).reverse

/-- Python `" ".join ws`. -/
def spaceJoin (ws : List PyStr) : PyStr :=
  List.intercalate [' '] ws

/-!
## Chunker (scripts/chunk_ar.py lines 92-101, identical in scripts/chunk_fr.py
lines 15-25)

```python
def chunk_text(text, chunk_size=350, overlap=60):
    words = text.split()
    chunks, start = [], 0
    step = max(1, chunk_size - overlap)
    while start < len(words):
        end = min(start + chunk_size, len(words))
        chunks.append(" ".join(words[start:end]))
        if end == len(words): break
        start += step
    return chunks
```

The loop is modelled over word indices: `chunkWindows n cs ov` returns the
list of `(start, end)` index windows the loop emits for `n` words.  Fuel `n`
is always sufficient because the loop advances `start` by at least 1.
-/

/-- `step = max(1, chunk_size - overlap)` (Python's negative difference and
Nat's truncated subtraction both clamp to 1). -/
def chunkStep (chunk_size overlap : Nat) : Nat :=
  max 1 (chunk_size - overlap)

/-- One iteration of the `while start < len(words)` loop, with fuel. -/
def chunkWindowsAux (n cs step : Nat) : Nat → Nat → List (Nat × Nat)
  | 0, _ => []
  | fuel + 1, start =>
    if start < n then
      if n ≤ start + cs then
        [(start, n)]
      else
        (start, start + cs) :: chunkWindowsAux n cs step fuel (start + step)
    else []

/-- The index windows `words[start:end]` emitted by `chunk_text` on `n` words. -/
def chunkWindows (n cs ov : Nat) : List (Nat × Nat) :=
  chunkWindowsAux n cs (chunkStep cs ov) n 0

/-- The token slices of the emitted chunks. -/
def chunk_tokens (ws : List PyStr) (cs ov : Nat) : List (List PyStr) :=
  (chunkWindows ws.length cs ov).map (fun w => (ws.drop w.1).take (w.2 - w.1))

/-- `chunk_text` proper: split into words, emit joined windows. -/
def chunk_text (text : PyStr) (cs ov : Nat) : List PyStr :=
  (chunk_tokens (pySplit text) cs ov).map spaceJoin

example : chunkWindows 1000 350 60 = [(0, 350), (290, 640), (580, 930), (870, 1000)] := by
  decide

example : chunkWindows 0 350 60 = [] := by decide

example : chunkWindows 3 2 5 = [(0, 2), (1, 3)] := by decide

/-! ### Chunker lemmas -/

theorem chunkWindowsAux_getElem (n cs step : Nat) :
    ∀ fuel start k w, 1 ≤ step →
    (chunkWindowsAux n cs step fuel start)[k]? = some w →
    w = (start + k * step, min (start + k * step + cs) n) := by
  intro fuel
  induction fuel with
  | zero =>
    intro start k w _ h
    simp [chunkWindowsAux] at h
  | succ fuel ih =>
    intro start k w hstep h
    by_cases hlt : start < n
    · by_cases hend : n ≤ start + cs
      · simp only [chunkWindowsAux, if_pos hlt, if_pos hend] at h
        match k with
        | 0 =>
          simp only [List.getElem?_cons_zero, Option.some_inj] at h
          have hmin : min (start + 0 * step + cs) n = n := by omega
          rw [hmin, ← h]
          simp
        | k + 1 =>
          simp at h
      · simp only [chunkWindowsAux, if_pos hlt, if_neg hend] at h
        match k with
        | 0 =>
          simp only [List.getElem?_cons_zero, Option.some_inj] at h
          have hmin : min (start + 0 * step + cs) n = start + cs := by omega
          rw [hmin, ← h]
          simp
        | k + 1 =>
          simp only [List.getElem?_cons_succ] at h
          rw [ih (start + step) k w hstep h]
          have : start + step + k * step = start + (k + 1) * step := by ring
          rw [this]
    · simp [chunkWindowsAux, if_neg hlt] at h

theorem chunkWindowsAux_mem (n cs step : Nat) :
    ∀ fuel start, ∀ w ∈ chunkWindowsAux n cs step fuel start,
      start ≤ w.1 ∧ w.1 < n ∧ w.2 = min (w.1 + cs) n := by
  intro fuel
  induction fuel with
  | zero => intro start w hw; simp [chunkWindowsAux] at hw
  | succ fuel ih =>
    intro start w hw
    by_cases hlt : start < n
    · by_cases hend : n ≤ start + cs
      · simp only [chunkWindowsAux, if_pos hlt, if_pos hend, List.mem_singleton] at hw
        subst hw
        refine ⟨le_refl _, hlt, ?_⟩
        omega
      · simp only [chunkWindowsAux, if_pos hlt, if_neg hend, List.mem_cons] at hw
        rcases hw with rfl | hw
        · refine ⟨le_refl _, hlt, ?_⟩
          omega
        · have := ih (start + step) w hw
          omega
    · simp [chunkWindowsAux, if_neg hlt] at hw

theorem chunkWindowsAux_cover (n cs step : Nat) :
    ∀ fuel start, 1 ≤ step → step ≤ cs → n - start ≤ fuel →
    ∀ i, start ≤ i → i < n →
    ∃ w ∈ chunkWindowsAux n cs step fuel start, w.1 ≤ i ∧ i < w.2 := by
  intro fuel
  induction fuel with
  | zero => intro start _ _ hfuel i h1 h2; omega
  | succ fuel ih =>
    intro start hstep hsc hfuel i h1 h2
    have hlt : start < n := by omega
    by_cases hend : n ≤ start + cs
    · refine ⟨(start, n), ?_, h1, h2⟩
      simp [chunkWindowsAux, if_pos hlt, if_pos hend]
    · by_cases hin : i < start + cs
      · refine ⟨(start, start + cs), ?_, h1, hin⟩
        simp [chunkWindowsAux, if_pos hlt, if_neg hend]
      · obtain ⟨w, hw, hwi⟩ :=
          ih (start + step) hstep hsc (by omega) i (by omega) h2
        refine ⟨w, ?_, hwi⟩
        simp [chunkWindowsAux, if_pos hlt, if_neg hend, hw]

theorem chunkWindowsAux_head (n cs step fuel start : Nat)
    (hfuel : n - start ≤ fuel) (hlt : start < n) :
    ∃ t, chunkWindowsAux n cs step fuel start =
      (start, min (start + cs) n) :: t := by
  match fuel with
  | 0 => omega
  | fuel + 1 =>
    by_cases hend : n ≤ start + cs
    · refine ⟨[], ?_⟩
      have hmin : min (start + cs) n = n := by omega
      simp [chunkWindowsAux, if_pos hlt, if_pos hend, hmin]
    · refine ⟨chunkWindowsAux n cs step fuel (start + step), ?_⟩
      have hmin : min (start + cs) n = start + cs := by omega
      simp [chunkWindowsAux, if_pos hlt, if_neg hend, hmin]

theorem chunkWindowsAux_chain (n cs step ov : Nat) :
    ∀ fuel start, 1 ≤ step → step ≤ cs → cs - step = ov → n - start ≤ fuel →
    List.Chain' (fun a b : Nat × Nat =>
        a.1 ≤ b.1 ∧ b.1 ≤ a.2 ∧ a.2 ≤ b.2 ∧ a.2 - b.1 = ov)
      (chunkWindowsAux n cs step fuel start) := by
  intro fuel
  induction fuel with
  | zero => intro start _ _ _ _; simp [chunkWindowsAux]
  | succ fuel ih =>
    intro start hstep hsc hov hfuel
    by_cases hlt : start < n
    · by_cases hend : n ≤ start + cs
      · simp [chunkWindowsAux, if_pos hlt, if_pos hend]
      · simp only [chunkWindowsAux, if_pos hlt, if_neg hend]
        have hrec := ih (start + step) hstep hsc hov (by omega)
        rcases chunkWindowsAux_head n cs step fuel (start + step)
            (by omega) (by omega) with ⟨t, ht⟩
        rw [ht] at hrec ⊢
        refine List.Chain'.cons ?_ hrec
        refine ⟨by omega, by omega, by omega, by omega⟩
    · simp [chunkWindowsAux, if_neg hlt]

theorem chunkWindowsAux_last (n cs step : Nat) :
    ∀ fuel start, 1 ≤ step → step ≤ cs → n - start ≤ fuel →
    ∀ hne : chunkWindowsAux n cs step fuel start ≠ [],
    ((chunkWindowsAux n cs step fuel start).getLast hne).2 = n := by
  intro fuel
  induction fuel with
  | zero => intro start _ _ _ hne; simp [chunkWindowsAux] at hne
  | succ fuel ih =>
    intro start hstep hsc hfuel hne
    by_cases hlt : start < n
    · by_cases hend : n ≤ start + cs
      · simp only [chunkWindowsAux, if_pos hlt, if_pos hend] at hne ⊢
        simp
      · simp only [chunkWindowsAux, if_pos hlt, if_neg hend] at hne ⊢
        rcases chunkWindowsAux_head n cs step fuel (start + step)
            (by omega) (by omega) with ⟨t, ht⟩
        have htail : chunkWindowsAux n cs step fuel (start + step) ≠ [] := by
          rw [ht]; simp
        rw [List.getLast_cons htail]
        exact ih (start + step) hstep hsc (by omega) htail
    · simp [chunkWindowsAux, if_neg hlt] at hne

theorem chunkStep_pos (cs ov : Nat) : 1 ≤ chunkStep cs ov := by
  simp [chunkStep]

theorem chunkStep_le (cs ov : Nat) (h : 1 ≤ cs) : chunkStep cs ov ≤ cs := by
  simp [chunkStep]
  omega

theorem chunkWindows_getElem (n cs ov k : Nat) (w : Nat × Nat)
    (h : (chunkWindows n cs ov)[k]? = some w) :
    w = (k * chunkStep cs ov, min (k * chunkStep cs ov + cs) n) := by
  have := chunkWindowsAux_getElem n cs (chunkStep cs ov) n 0 k w
    (chunkStep_pos cs ov) h
  simpa using this

theorem chunkWindows_mem (n cs ov : Nat) (w : Nat × Nat)
    (hw : w ∈ chunkWindows n cs ov) :
    w.1 < n ∧ w.2 = min (w.1 + cs) n :=
  ⟨(chunkWindowsAux_mem n cs _ n 0 w hw).2.1,
   (chunkWindowsAux_mem n cs _ n 0 w hw).2.2⟩

theorem chunkWindows_cover (n cs ov : Nat) (hcs : 1 ≤ cs) (i : Nat)
    (hi : i < n) :
    ∃ w ∈ chunkWindows n cs ov, w.1 ≤ i ∧ i < w.2 :=
  chunkWindowsAux_cover n cs (chunkStep cs ov) n 0
    (chunkStep_pos cs ov) (chunkStep_le cs ov hcs) (by omega) i (by omega) hi

theorem chunkWindows_chain (n cs ov : Nat) (hov : ov < cs) :
    List.Chain' (fun a b : Nat × Nat =>
        a.1 ≤ b.1 ∧ b.1 ≤ a.2 ∧ a.2 ≤ b.2 ∧ a.2 - b.1 = ov)
      (chunkWindows n cs ov) := by
  have hstep : chunkStep cs ov = cs - ov := by
    simp [chunkStep]; omega
  exact chunkWindowsAux_chain n cs (chunkStep cs ov) ov n 0
    (chunkStep_pos cs ov) (by omega) (by omega) (by omega)

theorem chunkWindows_last (n cs ov : Nat) (hcs : 1 ≤ cs)
    (hne : chunkWindows n cs ov ≠ []) :
    ((chunkWindows n cs ov).getLast hne).2 = n :=
  chunkWindowsAux_last n cs (chunkStep cs ov) n 0
    (chunkStep_pos cs ov) (chunkStep_le cs ov hcs) (by omega) hne

theorem mem_slice_of_window (ws : List PyStr) (a b i : Nat)
    (hai : a ≤ i) (hib : i < b) (hb : b ≤ ws.length) :
    ∀ hi : i < ws.length, ws[i] ∈ (ws.drop a).take (b - a) := by
  intro hi
  rw [List.mem_iff_getElem]
  have hlen : i - a < ((ws.drop a).take (b - a)).length := by
    simp only [List.length_take, List.length_drop]
    omega
  refine ⟨i - a, hlen, ?_⟩
  rw [List.getElem_take, List.getElem_drop]
  congr 1
  omega

theorem chunkWindows_ne_nil (n cs ov : Nat) (hn : 0 < n) :
    chunkWindows n cs ov ≠ [] := by
  rcases chunkWindowsAux_head n cs (chunkStep cs ov) n 0 (by omega) hn with ⟨t, ht⟩
  rw [chunkWindows, ht]
  simp

/-- C1: for every input text, `chunk_size ≥ 1` and `0 ≤ overlap < chunk_size`,
the chunks returned by `chunk_text` cover the whitespace-delimited token
sequence completely: every token appears in at least one emitted window, no
emitted window is empty, and every window overlaps its predecessor by exactly
`overlap` tokens. -/
theorem chunk_text_covers (text : PyStr) (cs ov : Nat)
    (hcs : 1 ≤ cs) (hov : ov < cs) :
    (∀ i, ∀ hi : i < (pySplit text).length,
        ∃ c ∈ chunk_tokens (pySplit text) cs ov, (pySplit text)[i] ∈ c)
  ∧ (∀ c ∈ chunk_tokens (pySplit text) cs ov, c ≠ [])
  ∧ List.Chain' (fun a b : Nat × Nat =>
        a.1 ≤ b.1 ∧ b.1 ≤ a.2 ∧ a.2 ≤ b.2 ∧ a.2 - b.1 = ov)
      (chunkWindows (pySplit text).length cs ov) := by
  set ws := pySplit text with hws
  set n := ws.length with hn
  refine ⟨?_, ?_, chunkWindows_chain n cs ov hov⟩
  · intro i hi
    obtain ⟨w, hw, hwi1, hwi2⟩ := chunkWindows_cover n cs ov hcs i hi
    obtain ⟨hw1, hw2⟩ := chunkWindows_mem n cs ov w hw
    refine ⟨(ws.drop w.1).take (w.2 - w.1), ?_, ?_⟩
    · exact List.mem_map_of_mem _ hw
    · exact mem_slice_of_window ws w.1 w.2 i hwi1 hwi2 (by omega) hi
  · intro c hc
    rw [chunk_tokens, List.mem_map] at hc
    obtain ⟨w, hw, rfl⟩ := hc
    obtain ⟨hw1, hw2⟩ := chunkWindows_mem n cs ov w hw
    have hlen : ((ws.drop w.1).take (w.2 - w.1)).length = w.2 - w.1 := by
      simp only [List.length_take, List.length_drop]
      omega
    intro hnil
    rw [hnil] at hlen
    simp at hlen
    omega

theorem chunk_text_covers_witness :
    List.Chain' (fun a b : Nat × Nat =>
        a.1 ≤ b.1 ∧ b.1 ≤ a.2 ∧ a.2 ≤ b.2 ∧ a.2 - b.1 = 1)
      (chunkWindows (pySplit ("a b c d".toList)).length 2 1) :=
  (chunk_text_covers ("a b c d".toList) 2 1 (by decide) (by decide)).2.2

/-- C2: window `k` starts at token index `k * max(1, chunk_size - overlap)`
and spans at most `chunk_size` tokens; the loop stops with the window that
reaches the end of the token sequence; for a 1000-token input with
`chunk_size = 350`, `overlap = 60` the boundaries are `[0,350)`, `[290,640)`,
`[580,930)`, `[870,1000)`. -/
theorem chunk_window_formula (n cs ov : Nat) (hcs : 1 ≤ cs) :
    (∀ k w, (chunkWindows n cs ov)[k]? = some w →
        w = (k * chunkStep cs ov, min (k * chunkStep cs ov + cs) n))
  ∧ (∀ w ∈ chunkWindows n cs ov, w.2 - w.1 ≤ cs)
  ∧ (∀ hne : chunkWindows n cs ov ≠ [],
        ((chunkWindows n cs ov).getLast hne).2 = n)
  ∧ chunkWindows 1000 350 60 = [(0, 350), (290, 640), (580, 930), (870, 1000)] := by
  refine ⟨fun k w h => chunkWindows_getElem n cs ov k w h, ?_,
    chunkWindows_last n cs ov hcs, by decide⟩
  intro w hw
  have := chunkWindows_mem n cs ov w hw
  omega

theorem chunk_window_formula_witness :
    chunkWindows 1000 350 60 = [(0, 350), (290, 640), (580, 930), (870, 1000)] :=
  (chunk_window_formula 1000 350 60 (by decide)).2.2.2

/-- C6 counterexample: a degenerate configuration (`chunk_size = 2 ≤ overlap
= 5`) is not rejected: `chunk_text` still produces chunks (the step is
clamped to 1), and `chunk_size = 0` still emits one empty window per token —
the pipeline has no startup validation at all, contradicting the claim that
no chunks are produced under such a configuration. -/
theorem no_startup_validation_counterexample :
    chunk_text ("a b c".toList) 2 5 = ["a b".toList, "b c".toList]
  ∧ chunk_text ("a b c".toList) 2 5 ≠ []
  ∧ chunk_text ("a b".toList) 0 0 = [[], []] := by decide

/-- C6 amended: degenerate configurations are not fatal and are not detected
at startup; for any text with at least one token, `chunk_text` emits at least
one chunk for every `chunk_size`/`overlap` (including `chunk_size ≤ overlap`
and `chunk_size = 0`), with the step clamped to 1 whenever
`chunk_size ≤ overlap`. -/
theorem degenerate_config_still_chunks (text : PyStr) (cs ov : Nat)
    (h : pySplit text ≠ []) :
    chunk_text text cs ov ≠ [] ∧ (cs ≤ ov → chunkStep cs ov = 1) := by
  constructor
  · have hn : 0 < (pySplit text).length := by
      cases hp : pySplit text with
      | nil => exact absurd hp h
      | cons a t => simp [hp]
    have := chunkWindows_ne_nil (pySplit text).length cs ov hn
    rw [chunk_text, chunk_tokens]
    simp only [ne_eq, List.map_eq_nil_iff]
    exact this
  · intro hle
    simp [chunkStep]
    omega

theorem degenerate_config_still_chunks_witness :
    chunk_text ("a b c".toList) 2 5 ≠ [] ∧ chunkStep 2 5 = 1 := by
  have h := degenerate_config_still_chunks ("a b c".toList) 2 5 (by decide)
  exact ⟨h.1, h.2 (by decide)⟩

/-!
## Hygiene rules (scripts/chunk_ar.py lines 24-87)

Python's Unicode character database (behind `str.isalpha` / `str.isdigit`)
is modelled as an explicit parameter.  The two compiled regular expressions
`AR_TITLE_BOILERPLATE` and `AR_MOVIE_TERMS` are modelled by direct decidable
matchers with `re.search` existence semantics.
-/

/-- The character classifications supplied by Python's Unicode database. -/
structure PyCharClass where
  isalpha : Char → Bool
  isdigit : Char → Bool

/-- A concrete instance of the Unicode tables, exact on ASCII. -/
def asciiCharClass : PyCharClass :=
  { isalpha := Char.isAlpha, isdigit := Char.isDigit }

/-- The character class `[\s:]` used as a boundary in `AR_TITLE_BOILERPLATE`. -/
def wsColon (c : Char) : Bool := pyIsSpace c || c = ':'

/-- The `(?:$|[\s:])` boundary after a keyword. -/
def boundaryOk : PyStr → Bool
  | [] => true
  | c :: _ => wsColon c

/-- The plain keyword alternatives of `AR_TITLE_BOILERPLATE`. -/
def arPlainKeywords : List PyStr :=
  ["الفهرس".toList, "المحتويات".toList, "الخاتمة".toList,
   "المراجع".toList, "حقوق".toList, "ترخيص".toList]

/-- Does `(?:الفهرس|شكر(?:\s*وتقدير)?|المحتويات|الخاتمة|المراجع|حقوق|ترخيص)(?:$|[\s:])`
match at the head of `s`? -/
def arKeywordAt (s : PyStr) : Bool :=
  arPlainKeywords.any (fun kw => kw.isPrefixOf s && boundaryOk (s.drop kw.length))
  || (("شكر".toList).isPrefixOf s &&
        (boundaryOk (s.drop 3) ||
         (("وتقدير".toList).isPrefixOf ((s.drop 3).dropWhile pyIsSpace) &&
          boundaryOk (((s.drop 3).dropWhile pyIsSpace).drop 6))))

/-- Scan for a keyword starting right after a `[\s:]` character. -/
def arBoilerScan : PyStr → Bool
  | [] => false
  | c :: rest => (wsColon c && arKeywordAt rest) || arBoilerScan rest

/-- `AR_TITLE_BOILERPLATE.search(s)` as a Boolean: the keyword must start at
the beginning of the string or right after a whitespace/colon character, and
must be followed by the end of the string or a whitespace/colon character. -/
def arBoilerSearch (s : PyStr) : Bool := arKeywordAt s || arBoilerScan s

/-- Does one alternative of `AR_MOVIE_TERMS` (`ترميناتور|تي\s*٢|تي2|T2`,
case-insensitive; the fifth alternative is subsumed by the first) match at
the head of `s`? -/
def arMovieAt (s : PyStr) : Bool :=
  ("ترميناتور".toList).isPrefixOf s
  || (("تي".toList).isPrefixOf s &&
        (match (s.drop 2).dropWhile pyIsSpace with
         | '٢' :: _ => true
         | _ => false))
  || ("تي2".toList).isPrefixOf s
  || (match s with
      | c :: '2' :: _ => c = 'T' || c = 't'
      | _ => false)

/-- `AR_MOVIE_TERMS.search(s)` as a Boolean. -/
def arMovieSearch : PyStr → Bool
  | [] => false
  | c :: rest => arMovieAt (c :: rest) || arMovieSearch rest

/-- `char_ratios` (chunk_ar.py lines 33-47): `(letters_ratio, digits_ratio,
non_letters_ratio)`, with exact rational arithmetic standing for Python
floats. -/
def char_ratios (U : PyCharClass) (txt : PyStr) : ℚ × ℚ × ℚ :=
  if txt = [] then (0, 0, 1)
  else ((txt.countP U.isalpha : ℚ) / (txt.length : ℚ),
        (txt.countP U.isdigit : ℚ) / (txt.length : ℚ),
        1 - (txt.countP U.isalpha : ℚ) / (txt.length : ℚ))

/-- `too_short` (chunk_ar.py lines 49-56). -/
def too_short (content : PyStr) (min_chars min_words : Nat) : Bool :=
  if content = [] then true
  else if content.length < min_chars then true
  else if (pySplit content).length < min_words then true
  else false

/-- `is_boilerplate_title` (chunk_ar.py lines 58-59):
`bool(section_title and AR_TITLE_BOILERPLATE.search(section_title))`. -/
def is_boilerplate_title (section_title : PyStr) : Bool :=
  !section_title.isEmpty && arBoilerSearch section_title

/-- `looks_like_ar_movie_subs` (chunk_ar.py lines 61-65). -/
def looks_like_ar_movie_subs (U : PyCharClass) (content : PyStr)
    (movie_digits_drop : ℚ) : Bool :=
  if content = [] then false
  else
    arMovieSearch content && decide (movie_digits_drop < (char_ratios U content).2.1)

/-- `should_drop_chunk` (chunk_ar.py lines 72-87). -/
def should_drop_chunk (U : PyCharClass) (section_title content : PyStr)
    (min_chars min_words : Nat) (digits_punct_drop movie_digits_drop : ℚ) :
    Bool × String :=
  if too_short content min_chars min_words then (true, "too_short")
  else if is_boilerplate_title section_title then (true, "boilerplate_title")
  else if digits_punct_drop < (char_ratios U content).2.2 then
    (true, "digits_punct_heavy")
  else if looks_like_ar_movie_subs U content movie_digits_drop then
    (true, "ar_movie_subs")
  else (false, "")

example : arBoilerSearch ("الفهرس".toList) = true := by decide
example : arBoilerSearch ("كتاب مفيد".toList) = false := by decide
example : arBoilerSearch ("مقدمة: المراجع".toList) = true := by decide
example : arMovieSearch ("فيلم ترميناتور 2".toList) = true := by decide

/-- C3: `should_drop_chunk` returns exactly one `(dropped, reason)` pair with
an empty reason when kept; the rules fire in the fixed order `too_short`,
`boilerplate_title`, `digits_punct_heavy`, `ar_movie_subs`, and the first
matching rule's reason is reported — in particular a chunk satisfying both
the `too_short` and the `boilerplate_title` conditions reports `too_short`. -/
theorem should_drop_chunk_priority (U : PyCharClass)
    (title content : PyStr) (mc mw : Nat) (dp mp : ℚ) :
    ((should_drop_chunk U title content mc mw dp mp).1 = false →
        (should_drop_chunk U title content mc mw dp mp).2 = "")
  ∧ (too_short content mc mw = true →
        should_drop_chunk U title content mc mw dp mp = (true, "too_short"))
  ∧ (too_short content mc mw = false → is_boilerplate_title title = true →
        should_drop_chunk U title content mc mw dp mp = (true, "boilerplate_title"))
  ∧ (too_short content mc mw = false → is_boilerplate_title title = false →
        dp < (char_ratios U content).2.2 →
        should_drop_chunk U title content mc mw dp mp = (true, "digits_punct_heavy"))
  ∧ (too_short content mc mw = false → is_boilerplate_title title = false →
        ¬ dp < (char_ratios U content).2.2 →
        looks_like_ar_movie_subs U content mp = true →
        should_drop_chunk U title content mc mw dp mp = (true, "ar_movie_subs"))
  ∧ (too_short content mc mw = false → is_boilerplate_title title = false →
        ¬ dp < (char_ratios U content).2.2 →
        looks_like_ar_movie_subs U content mp = false →
        should_drop_chunk U title content mc mw dp mp = (false, ""))
  ∧ (too_short content mc mw = true → is_boilerplate_title title = true →
        should_drop_chunk U title content mc mw dp mp = (true, "too_short")) := by
  unfold should_drop_chunk
  refine ⟨?_, ?_, ?_, ?_, ?_, ?_, ?_⟩ <;>
    intros <;> split_ifs <;> simp_all

theorem should_drop_chunk_priority_witness :
    too_short ("قصير".toList) 60 6 = true
  ∧ is_boilerplate_title ("الفهرس".toList) = true
  ∧ should_drop_chunk asciiCharClass ("الفهرس".toList) ("قصير".toList)
      60 6 (3/5) (3/10) = (true, "too_short") := by
  have h := should_drop_chunk_priority asciiCharClass ("الفهرس".toList)
    ("قصير".toList) 60 6 (3/5) (3/10)
  exact ⟨by decide, by decide, h.2.2.2.2.2.2 (by decide) (by decide)⟩

/-!
## Unicode normalization model

`unicodedata.normalize("NFKC", ·)` is modelled by the standard Unicode
algorithm — full compatibility decomposition, canonical reordering by
combining class, then canonical composition — over a character table
(decompositions, combining classes, primary composites) restricted to the
repertoire exercised in this development; characters outside the table are
inert, which matches the real Unicode data for every character appearing in
the theorems below.
-/

/-- Canonical combining class (from UnicodeData.txt) for the modelled
repertoire; characters outside it are starters (class 0). -/
def ccc (c : Char) : Nat :=
  let n := c.toNat
  if n = 0x301 then 230
  else if 0x610 ≤ n && n ≤ 0x617 then 230
  else if n = 0x618 then 30
  else if n = 0x619 then 31
  else if n = 0x61A then 32
  else if 0x64B ≤ n && n ≤ 0x652 then (n - 0x64B) + 27
  else if n = 0x653 then 230
  else if n = 0x654 then 230
  else if n = 0x655 then 220
  else if n = 0x670 then 35
  else 0

/-- Full compatibility (NFKD) decomposition for the modelled repertoire. -/
def decompK (c : Char) : List Char :=
  let n := c.toNat
  if n = 0x622 then ['ا', 'ٓ']
  else if n = 0x623 then ['ا', 'ٔ']
  else if n = 0x624 then ['و', 'ٔ']
  else if n = 0x625 then ['ا', 'ٕ']
  else if n = 0x626 then ['ي', 'ٔ']
  else if n = 0xE9 then ['e', '́']
  else [c]

/-- Primary composites for the modelled repertoire. -/
def composePair (a b : Char) : Option Char :=
  if a = 'ا' && b = 'ٓ' then some 'آ'
  else if a = 'ا' && b = 'ٔ' then some 'أ'
  else if a = 'ا' && b = 'ٕ' then some 'إ'
  else if a = 'و' && b = 'ٔ' then some 'ؤ'
  else if a = 'ي' && b = 'ٔ' then some 'ئ'
  else if a = 'e' && b = '́' then some 'é'
  else none

/-- One bubble pass of the canonical ordering algorithm: adjacent marks with
decreasing nonzero combining classes are swapped; marks never cross
starters. -/
def bubbleStep (a : Char) : List Char → List Char
  | [] => [a]
  | b :: rest =>
    if ccc b ≠ 0 && ccc b < ccc a then b :: bubbleStep a rest
    else a :: bubbleStep b rest

def reorderPass (l : List Char) : List Char :=
  match l with
  | [] => []
  | a :: rest => bubbleStep a rest

def reorderN : Nat → List Char → List Char
  | 0, l => l
  | n + 1, l => reorderN n (reorderPass l)

/-- Canonical ordering: `length` bubble passes fully sort each run of
combining marks by combining class (stable). -/
def canonicalOrder (l : List Char) : List Char := reorderN l.length l

/-- Canonical composition starting from a starter: `acc` holds the combining
marks seen since the starter (reversed), `lastcc` the class of the most
recent one (0 if none).  A character composes with the starter exactly when
it is not blocked (`lastcc < ccc c`, or directly adjacent for starters) and
a primary composite exists. -/
def composeRun (starter : Char) (acc : List Char) (lastcc : Nat) :
    List Char → List Char
  | [] => starter :: acc.reverse
  | c :: rest =>
    if ccc c = 0 then
      match composePair starter c, acc with
      | some d, [] => composeRun d [] 0 rest
      | _, _ => (starter :: acc.reverse) ++ composeRun c [] 0 rest
    else
      if lastcc < ccc c then
        match composePair starter c with
        | some d => composeRun d acc lastcc rest
        | none => composeRun starter (c :: acc) (ccc c) rest
      else composeRun starter (c :: acc) (ccc c) rest

def nfcCompose : List Char → List Char
  | [] => []
  | c :: rest => if ccc c = 0 then composeRun c [] 0 rest else c :: nfcCompose rest

/-- `unicodedata.normalize("NFKC", s)` over the modelled repertoire. -/
def nfkc (s : List Char) : List Char :=
  nfcCompose (canonicalOrder (s.flatMap decompK))

example : nfkc ("أ".toList) = "أ".toList := by decide
example : nfkc ['e', '́'] = ['é'] := by decide
example : nfkc ['e', 'ـ', '́'] = ['e', 'ـ', '́'] := by decide
example : nfkc ['ا', 'ّ', 'َ'] = ['ا', 'َ', 'ّ'] := by decide
example : nfkc ("ا".toList ++ ['ٔ']) = "أ".toList := by decide

/-!
## Arabic normalization (scripts/chunk_ar.py lines 8-22)

```python
DIACRITICS_PATTERN = re.compile(r"[ؐ-ًؚ-ٰٟۖ-ۭ]")

def normalize_arabic(s: str) -> str:
    if not s:
        return s
    s = unicodedata.normalize("NFKC", s)
    s = (s.replace("أ","ا").replace("إ","ا").replace("آ","ا")
           .replace("ى","ي").replace("ئ","ي").replace("ؤ","و")
           .replace("ة","ه"))
    s = s.replace("ـ","")
    s = DIACRITICS_PATTERN.sub("", s)
    return s
```
-/

/-- The chained single-character `str.replace` calls, as one character map
(each later replacement never hits an earlier output). -/
def replaceArLetters : Char → Char
  | 'أ' => 'ا'
  | 'إ' => 'ا'
  | 'آ' => 'ا'
  | 'ى' => 'ي'
  | 'ئ' => 'ي'
  | 'ؤ' => 'و'
  | 'ة' => 'ه'
  | c => c

def tatweel : Char := 'ـ'

/-- `DIACRITICS_PATTERN`: `[ؐ-ًؚ-ٰٟۖ-ۭ]`. -/
def isArDiacritic (c : Char) : Bool :=
  let n := c.toNat
  (0x610 ≤ n && n ≤ 0x61A) || (0x64B ≤ n && n ≤ 0x65F) || n = 0x670
    || (0x6D6 ≤ n && n ≤ 0x6ED)

/-- `normalize_arabic` (chunk_ar.py lines 13-22). -/
def normalize_arabic (s : PyStr) : PyStr :=
  if s = [] then s
  else
    let s1 := nfkc s
    let s2 := s1.map replaceArLetters
    let s3 := s2.filter (fun c => c ≠ tatweel)
    s3.filter (fun c => !isArDiacritic c)

example : normalize_arabic ("أُسُس الأخلاق".toList) = "اسس الاخلاق".toList := by
  decide

theorem replaceArLetters_fix (c : Char)
    (h1 : c ≠ 'أ') (h2 : c ≠ 'إ') (h3 : c ≠ 'آ') (h4 : c ≠ 'ى')
    (h5 : c ≠ 'ئ') (h6 : c ≠ 'ؤ') (h7 : c ≠ 'ة') :
    replaceArLetters c = c := by
  unfold replaceArLetters
  split <;> simp_all

theorem replaceArLetters_idem (c : Char) :
    replaceArLetters (replaceArLetters c) = replaceArLetters c := by
  by_cases h1 : c = 'أ'
  · subst h1; decide
  by_cases h2 : c = 'إ'
  · subst h2; decide
  by_cases h3 : c = 'آ'
  · subst h3; decide
  by_cases h4 : c = 'ى'
  · subst h4; decide
  by_cases h5 : c = 'ئ'
  · subst h5; decide
  by_cases h6 : c = 'ؤ'
  · subst h6; decide
  by_cases h7 : c = 'ة'
  · subst h7; decide
  have hfix := replaceArLetters_fix c h1 h2 h3 h4 h5 h6 h7
  rw [hfix, hfix]

/-- C5 counterexample: `normalize_arabic` is not idempotent.  On
`"e" + tatweel + combining-acute` the first pass removes the tatweel, which
unblocks the canonical composition `e + U+0301 → é`, so a second pass (whose
NFKC step performs that composition) changes the string again. -/
theorem normalize_arabic_not_idempotent :
    normalize_arabic (normalize_arabic ['e', 'ـ', '́'])
      ≠ normalize_arabic ['e', 'ـ', '́']
  ∧ normalize_arabic ['e', 'ـ', '́'] = ['e', '́']
  ∧ normalize_arabic (normalize_arabic ['e', 'ـ', '́']) = ['é'] := by
  decide

/-- C5 amended: `normalize_arabic` is idempotent on every input whose
once-normalized form is NFKC-stable (which covers all ordinary Arabic text);
it can fail to be idempotent only when removing the tatweel or a diacritic
unblocks a new canonical composition, as in the counterexample. -/
theorem normalize_arabic_idem_of_nfkc_stable (s : PyStr)
    (h : nfkc (normalize_arabic s) = normalize_arabic s) :
    normalize_arabic (normalize_arabic s) = normalize_arabic s := by
  by_cases hs : s = []
  · subst hs; rfl
  · set y := normalize_arabic s with hy
    by_cases hy0 : y = []
    · rw [hy0]; rfl
    · have hmem : ∀ c ∈ y, replaceArLetters c = c
          ∧ decide (c ≠ tatweel) = true ∧ (!isArDiacritic c) = true := by
        intro c hc
        rw [hy, normalize_arabic, if_neg hs] at hc
        simp only [List.mem_filter] at hc
        obtain ⟨⟨hcm, hq1⟩, hq2⟩ := hc
        rw [List.mem_map] at hcm
        obtain ⟨w, _, rfl⟩ := hcm
        exact ⟨replaceArLetters_idem w, hq1, hq2⟩
      have h1 : y.map replaceArLetters = y := by
        have := List.map_congr_left (fun c hc => (hmem c hc).1)
        rw [this]
        simp
      have h2 : y.filter (fun c => c ≠ tatweel) = y :=
        List.filter_eq_self.mpr (fun c hc => (hmem c hc).2.1)
      have h3 : y.filter (fun c => !isArDiacritic c) = y :=
        List.filter_eq_self.mpr (fun c hc => (hmem c hc).2.2)
      calc normalize_arabic y
          = (((nfkc y).map replaceArLetters).filter
              (fun c => c ≠ tatweel)).filter (fun c => !isArDiacritic c) := by
            rw [normalize_arabic, if_neg hy0]
        _ = ((y.map replaceArLetters).filter
              (fun c => c ≠ tatweel)).filter (fun c => !isArDiacritic c) := by
            rw [h]
        _ = y := by rw [h1, h2, h3]

theorem normalize_arabic_idem_witness :
    normalize_arabic (normalize_arabic ("أَخْلاق".toList))
      = normalize_arabic ("أَخْلاق".toList) :=
  normalize_arabic_idem_of_nfkc_stable ("أَخْلاق".toList) (by decide)

/-!
## Query-time normalizer (scripts/text_norm.py)

```python
AR_DIACRITICS = re.compile(r'[ؗ-ًؚ-ْ]')

def normalize_text(text: str, lang: str | None = None) -> str:
    text = unicodedata.normalize("NFKC", text)
    if lang == "ar":
        text = AR_DIACRITICS.sub("", text)
    return text
```
-/

/-- `AR_DIACRITICS` of text_norm.py: `[ؗ-ًؚ-ْ]`. -/
def isArTashkeel (c : Char) : Bool :=
  let n := c.toNat
  (0x617 ≤ n && n ≤ 0x61A) || (0x64B ≤ n && n ≤ 0x652)

/-- `normalize_text` (text_norm.py lines 6-31). -/
def normalize_text (text : PyStr) (lang : Option String) : PyStr :=
  let t := nfkc text
  if lang = some ("ar") then t.filter (fun c => !isArTashkeel c) else t

/-- C10: the query-time normalizer and the indexing-time Arabic normalizer
are not equivalent: on hamza-seated alef, ta-marbuta and tatweel,
`normalize_text(x, "ar")` differs from `normalize_arabic(x)`, because
`normalize_text` performs only NFKC plus diacritic stripping and none of the
letter unifications or the tatweel removal. -/
theorem normalize_text_ne_normalize_arabic :
    normalize_text ("أ".toList) (some ("ar")) ≠ normalize_arabic ("أ".toList)
  ∧ normalize_text ("ة".toList) (some ("ar")) ≠ normalize_arabic ("ة".toList)
  ∧ normalize_text [tatweel] (some ("ar")) ≠ normalize_arabic [tatweel]
  ∧ normalize_text ("أ".toList) (some ("ar")) = "أ".toList
  ∧ normalize_arabic ("أ".toList) = "ا".toList := by
  refine ⟨by decide, by decide, by decide, by decide, by decide⟩

/-!
## Pre-cleaning and generic normalization
(scripts/txt_to_sections_en_fr.py lines 36-52 and 75-81)
-/

/-- Unicode general category `Cf` (format controls) for the modelled
repertoire. -/
def isCf (c : Char) : Bool :=
  let n := c.toNat
  n = 0xAD || (0x600 ≤ n && n ≤ 0x605) || n = 0x61C
    || (0x200B ≤ n && n ≤ 0x200F) || (0x202A ≤ n && n ≤ 0x202E)
    || (0x2060 ≤ n && n ≤ 0x2064) || (0x2066 ≤ n && n ≤ 0x206F)
    || n = 0xFEFF

/-- `BIDI_RE`: `[؜‎‏‪-‮⁦-⁩]`. -/
def isBidiCtl (c : Char) : Bool :=
  let n := c.toNat
  n = 0x61C || n = 0x200E || n = 0x200F
    || (0x202A ≤ n && n ≤ 0x202E) || (0x2066 ≤ n && n ≤ 0x2069)

/-- `preclean_text` up to (but excluding) the final form-feed replacement:
NFKC, keep `\n\r\t` or non-`Cf`, strip bidi controls, strip tatweel. -/
def preclean_stage (s : PyStr) : PyStr :=
  (((nfkc s).filter
      (fun c => c = '\n' || c = '\r' || c = '\t' || !isCf c)).filter
    (fun c => !isBidiCtl c)).filter (fun c => c ≠ tatweel)

/-- `s.replace("\f", "\n\n")` as a character expansion. -/
def ffRepl (c : Char) : List Char :=
  if c = '\x0c' then ['\n', '\n'] else [c]

/-- `preclean_text` (txt_to_sections_en_fr.py lines 36-52). -/
def preclean_text (s : PyStr) : PyStr :=
  if s = [] then s else (preclean_stage s).flatMap ffRepl

/-- `re.sub(r"\s+", " ", s)`: every maximal whitespace run becomes one
space.  The flag records being inside a run whose single `' '` was already
emitted. -/
def collapseWsAux : Bool → List Char → List Char
  | _, [] => []
  | true, c :: rest =>
    if pyIsSpace c then collapseWsAux true rest
    else c :: collapseWsAux false rest
  | false, c :: rest =>
    if pyIsSpace c then ' ' :: collapseWsAux true rest
    else c :: collapseWsAux false rest

def collapseWs (l : List Char) : List Char := collapseWsAux false l

/-- `normalize_generic` (txt_to_sections_en_fr.py lines 75-81):
`re.sub(r"\s+", " ", NFKC(s)).strip()`. -/
def normalize_generic (s : PyStr) : PyStr :=
  if s = [] then s else pyStrip (collapseWs (nfkc s))

example : normalize_generic ("a  b".toList) = "a b".toList := by decide
example : preclean_text ("a  b".toList) = "a  b".toList := by decide

/-- C7 counterexample: no normalization stage collapses space/tab runs while
leaving line breaks in place and turning form feeds into blank-line pairs:
`preclean_text` converts form feeds but does not collapse space runs, while
`normalize_generic` collapses every whitespace run — destroying line breaks
and form feeds alike. -/
theorem whitespace_claim_counterexample :
    preclean_text ("a  b".toList) = "a  b".toList
  ∧ preclean_text ("a  b".toList) ≠ "a b".toList
  ∧ normalize_generic ['a', '\n', 'b'] = "a b".toList
  ∧ normalize_generic ['a', '\x0c', 'b'] = "a b".toList
  ∧ normalize_generic ['a', '\x0c', 'b'] ≠ ['a', '\n', '\n', 'b']
  ∧ preclean_text ['a', '\x0c', 'b'] = ['a', '\n', '\n', 'b'] := by
  refine ⟨by decide, by decide, by decide, by decide, by decide, by decide⟩

theorem collapseWsAux_mem_space :
    ∀ (fl : Bool) (l : List Char), ∀ c ∈ collapseWsAux fl l,
      pyIsSpace c = true → c = ' ' := by
  intro fl l
  induction l generalizing fl with
  | nil => intro c hc; cases fl <;> simp [collapseWsAux] at hc
  | cons a rest ih =>
    intro c hc hsp
    by_cases ha : pyIsSpace a = true
    · cases fl with
      | true =>
        simp only [collapseWsAux, if_pos ha] at hc
        exact ih true c hc hsp
      | false =>
        simp only [collapseWsAux, if_pos ha, List.mem_cons] at hc
        rcases hc with rfl | hc
        · rfl
        · exact ih true c hc hsp
    · cases fl <;>
      · simp only [collapseWsAux, if_neg ha, List.mem_cons] at hc
        rcases hc with rfl | hc
        · exact absurd hsp (by simp_all)
        · exact ih false c hc hsp

theorem collapseWsAux_true_head :
    ∀ (l : List Char) (c : Char) (t : List Char),
      collapseWsAux true l = c :: t → pyIsSpace c = false := by
  intro l
  induction l with
  | nil => intro c t h; simp [collapseWsAux] at h
  | cons a rest ih =>
    intro c t h
    by_cases ha : pyIsSpace a = true
    · simp only [collapseWsAux, if_pos ha] at h
      exact ih c t h
    · simp only [collapseWsAux, if_neg ha] at h
      injection h with h1 h2
      rw [← h1]
      simpa using ha

theorem collapseWsAux_chain :
    ∀ (fl : Bool) (l : List Char),
      List.Chain' (fun a b => ¬(pyIsSpace a = true ∧ pyIsSpace b = true))
        (collapseWsAux fl l) := by
  intro fl l
  induction l generalizing fl with
  | nil => cases fl <;> simp [collapseWsAux]
  | cons a rest ih =>
    by_cases ha : pyIsSpace a = true
    · cases fl with
      | true => simpa only [collapseWsAux, if_pos ha] using ih true
      | false =>
        simp only [collapseWsAux, if_pos ha]
        rw [List.chain'_cons']
        refine ⟨?_, ih true⟩
        intro y hy
        cases hrec : collapseWsAux true rest with
        | nil => rw [hrec] at hy; simp at hy
        | cons c t =>
          rw [hrec] at hy
          simp only [List.head?_cons, Option.mem_def, Option.some_inj] at hy
          have hc := collapseWsAux_true_head rest c t hrec
          subst hy
          simp [hc]
    · cases fl <;>
      · simp only [collapseWsAux, if_neg ha]
        rw [List.chain'_cons']
        refine ⟨?_, ih false⟩
        intro y _
        simp [ha]

theorem pyStrip_isPart (l : List Char) : pyStrip l <:+: l := by
  rw [pyStrip]
  have h1 : (l.dropWhile pyIsSpace) <:+ l := List.dropWhile_suffix pyIsSpace
  have h2 : ((l.dropWhile pyIsSpace).reverse.dropWhile pyIsSpace) <:+
      (l.dropWhile pyIsSpace).reverse := List.dropWhile_suffix pyIsSpace
  have h3 : ((l.dropWhile pyIsSpace).reverse.dropWhile pyIsSpace).reverse <+:
      (l.dropWhile pyIsSpace) := by
    have := List.reverse_prefix.mpr h2
    simpa using this
  exact h3.isInfix.trans h1.isInfix

theorem mem_pyStrip (l : List Char) (c : Char) (h : c ∈ pyStrip l) : c ∈ l :=
  (pyStrip_isPart l).subset h

theorem ffRepl_count_nl (l : List Char) :
    (l.flatMap ffRepl).count '\n' = l.count '\n' + 2 * l.count '\x0c' := by
  induction l with
  | nil => simp
  | cons a rest ih =>
    by_cases ha : a = '\x0c'
    · subst ha
      simp only [List.flatMap_cons, ffRepl, if_pos rfl, List.count_append,
        List.count_cons, ih]
      simp
      omega
    · simp only [List.flatMap_cons, ffRepl, if_neg ha, List.count_append,
        List.count_cons, ih]
      have hne : ¬ a = '\n' → True := fun _ => trivial
      by_cases hnl : a = '\n'
      · subst hnl; simp; omega
      · simp [hnl, ha]

theorem ffRepl_count_other (x : Char) (hx1 : x ≠ '\x0c') (hx2 : x ≠ '\n') :
    ∀ l : List Char, (l.flatMap ffRepl).count x = l.count x := by
  intro l
  induction l with
  | nil => simp
  | cons a rest ih =>
    by_cases ha : a = '\x0c'
    · subst ha
      simp only [List.flatMap_cons, ffRepl, if_pos rfl, if_true, eq_self_iff_true,
        List.count_append, ih, List.count_cons]
      have h1 : ('\x0c' == x) = false := by
        rw [beq_eq_false_iff_ne]
        exact Ne.symm hx1
      have hn : ('\n' == x) = false := by
        rw [beq_eq_false_iff_ne]
        exact Ne.symm hx2
      simp [h1, hn]
    · simp only [List.flatMap_cons, ffRepl, if_neg ha, List.count_append, ih,
        List.count_cons, List.count_nil, Nat.zero_add]
      exact Nat.add_comm _ _

theorem ff_not_mem_ffRepl (l : List Char) : '\x0c' ∉ l.flatMap ffRepl := by
  intro h
  rw [List.mem_flatMap] at h
  obtain ⟨c, _, hc⟩ := h
  by_cases hcf : c = '\x0c'
  · subst hcf
    simp [ffRepl] at hc
  · simp [ffRepl, hcf] at hc
    exact hcf (by rw [← hc])

/-- C7 amended: the two whitespace behaviours live in different stages.
`preclean_text` eliminates form feeds, converting each into a blank-line pair
(two newlines), and never collapses space runs (space counts are preserved
from the pre-form-feed stage); `normalize_generic` collapses every maximal
whitespace run — line breaks and form feeds included — to a single space, so
its output contains no whitespace other than single spaces and never two
adjacent spaces. -/
theorem whitespace_stage_behaviour (s : PyStr) :
    (∀ c ∈ normalize_generic s, pyIsSpace c = true → c = ' ')
  ∧ List.Chain' (fun a b => ¬(pyIsSpace a = true ∧ pyIsSpace b = true))
      (normalize_generic s)
  ∧ '\x0c' ∉ preclean_text s
  ∧ (preclean_text s).count '\n' =
      (preclean_stage s).count '\n' + 2 * (preclean_stage s).count '\x0c'
  ∧ (preclean_text s).count ' ' = (preclean_stage s).count ' ' := by
  by_cases hs : s = []
  · subst hs
    refine ⟨?_, ?_, ?_, ?_, ?_⟩ <;> simp [normalize_generic, preclean_text,
      preclean_stage, nfkc, canonicalOrder, reorderN, nfcCompose]
  · refine ⟨?_, ?_, ?_, ?_, ?_⟩
    · intro c hc hsp
      rw [normalize_generic, if_neg hs] at hc
      exact collapseWsAux_mem_space false (nfkc s) c
        (mem_pyStrip _ c hc) hsp
    · rw [normalize_generic, if_neg hs]
      exact List.Chain'.infix (collapseWsAux_chain false (nfkc s))
        (pyStrip_isPart (collapseWs (nfkc s)))
    · rw [preclean_text, if_neg hs]
      exact ff_not_mem_ffRepl (preclean_stage s)
    · rw [preclean_text, if_neg hs]
      exact ffRepl_count_nl (preclean_stage s)
    · rw [preclean_text, if_neg hs]
      exact ffRepl_count_other ' ' (by decide) (by decide) (preclean_stage s)

theorem whitespace_stage_behaviour_witness :
    '\x0c' ∉ preclean_text ("a\tb c".toList)
  ∧ (preclean_text ['a', '\x0c', 'b']).count '\n' =
      (preclean_stage ['a', '\x0c', 'b']).count '\n' +
        2 * (preclean_stage ['a', '\x0c', 'b']).count '\x0c' := by
  exact ⟨(whitespace_stage_behaviour ("a\tb c".toList)).2.2.1,
    (whitespace_stage_behaviour ['a', '\x0c', 'b']).2.2.2.1⟩

/-!
## Per-chunk pipeline loop (scripts/chunk_ar.py lines 157-196)

The inner `for i, chunk in enumerate(chunks)` loop of `main`: hygiene
decision, then (with `--dedupe`) the fingerprint test against the
caller-owned `seen_hashes` set, then the output-content construction.
`hashlib.sha1(...).hexdigest()` is an abstract function parameter of the
configuration. -/

/-- The run configuration of `main` relevant to one chunk (argparse flags
and the Unicode/SHA-1 collaborators). -/
structure PipeCfg where
  U : PyCharClass
  hash : PyStr → PyStr
  min_chars : Nat
  min_words : Nat
  digits_punct_drop : ℚ
  movie_digits_drop : ℚ
  dedupe : Bool
  normalize : Bool
  prepend_title : Bool
  section_title : PyStr

/-- `content_fingerprint` (chunk_ar.py lines 67-70). -/
def content_fingerprint (hash : PyStr → PyStr) (content : PyStr)
    (do_normalize : Bool) : PyStr :=
  let txt := if do_normalize then normalize_arabic content else content
  hash (pyStrip (nfkc txt))

/-- The fingerprint `main` computes when `--dedupe` is set:
`content_fingerprint(chunk, do_normalize=True)`. -/
def fingerprintOf (cfg : PipeCfg) (chunk : PyStr) : PyStr :=
  content_fingerprint cfg.hash chunk true

/-- The hygiene decision `main` requests for one chunk. -/
def hygieneDrop (cfg : PipeCfg) (chunk : PyStr) : Bool × String :=
  should_drop_chunk cfg.U cfg.section_title chunk cfg.min_chars cfg.min_words
    cfg.digits_punct_drop cfg.movie_digits_drop

/-- What happens to one chunk in the loop. -/
inductive Outcome where
  | kept (content : PyStr)
  | droppedHygiene (reason : String)
  | droppedDedupe
deriving DecidableEq

/-- The emitted content (chunk_ar.py lines 181-184): optional normalization,
optional `[section_title] ` prefix. -/
def out_content (cfg : PipeCfg) (chunk : PyStr) : PyStr :=
  let oc := if cfg.normalize then normalize_arabic chunk else chunk
  if cfg.prepend_title && !cfg.section_title.isEmpty &&
      !(match pyStrip oc with | '[' :: _ => true | _ => false) then
    '[' :: (cfg.section_title ++ (']' :: ' ' :: oc))
  else oc

/-- One iteration of the chunk loop, threading `seen_hashes`. -/
def stepChunk (cfg : PipeCfg) (seen : List PyStr) (chunk : PyStr) :
    Outcome × List PyStr :=
  if (hygieneDrop cfg chunk).1 then
    (Outcome.droppedHygiene (hygieneDrop cfg chunk).2, seen)
  else if cfg.dedupe = true ∧ fingerprintOf cfg chunk ∈ seen then
    (Outcome.droppedDedupe, seen)
  else if cfg.dedupe then
    (Outcome.kept (out_content cfg chunk), fingerprintOf cfg chunk :: seen)
  else
    (Outcome.kept (out_content cfg chunk), seen)

/-- The whole loop: the outcome of every chunk, in order. -/
def processChunks (cfg : PipeCfg) (seen : List PyStr) :
    List PyStr → List Outcome
  | [] => []
  | c :: rest =>
    (stepChunk cfg seen c).1 :: processChunks cfg (stepChunk cfg seen c).2 rest

theorem processChunks_dedupe_iff (cfg : PipeCfg) (hd : cfg.dedupe = true) :
    ∀ (chunks : List PyStr) (seen : List PyStr),
    (∀ c ∈ chunks, (hygieneDrop cfg c).1 = false) →
    ∀ (k : Nat) (w : PyStr), chunks[k]? = some w →
      (((processChunks cfg seen chunks)[k]? = some Outcome.droppedDedupe) ↔
        (fingerprintOf cfg w ∈ seen ∨
          ∃ j : Nat, j < k ∧ ∃ u : PyStr, chunks[j]? = some u ∧
            (processChunks cfg seen chunks)[j]? =
              some (Outcome.kept (out_content cfg u)) ∧
            fingerprintOf cfg u = fingerprintOf cfg w))
      ∧ (((processChunks cfg seen chunks)[k]? = some Outcome.droppedDedupe) ∨
         ((processChunks cfg seen chunks)[k]? =
            some (Outcome.kept (out_content cfg w)))) := by
  intro chunks
  induction chunks with
  | nil =>
    intro seen _ k w hk
    simp at hk
  | cons c cs ih =>
    intro seen hpass k w hk
    have hc : (hygieneDrop cfg c).1 = false := hpass c (List.mem_cons_self c cs)
    by_cases hmem : fingerprintOf cfg c ∈ seen
    · -- head chunk is a duplicate of something already seen
      have hproc : processChunks cfg seen (c :: cs) =
          Outcome.droppedDedupe :: processChunks cfg seen cs := by
        simp [processChunks, stepChunk, hc, hd, hmem]
      rw [hproc]
      match k, hk with
      | 0, hk =>
        simp only [List.getElem?_cons_zero, Option.some_inj] at hk
        subst hk
        refine ⟨⟨fun _ => Or.inl hmem, fun _ => by simp⟩, Or.inl (by simp)⟩
      | k + 1, hk =>
        simp only [List.getElem?_cons_succ] at hk
        have ihk := ih seen (fun x hx => hpass x (List.mem_cons_of_mem c hx)) k w hk
        refine ⟨?_, ?_⟩
        · rw [List.getElem?_cons_succ]
          rw [ihk.1]
          constructor
          · rintro (h | ⟨j, hj, u, hu, ho, hf⟩)
            · exact Or.inl h
            · exact Or.inr ⟨j + 1, by omega, u, by simpa using hu, by simpa using ho, hf⟩
          · rintro (h | ⟨j, hj, u, hu, ho, hf⟩)
            · exact Or.inl h
            · match j, hu, ho with
              | 0, hu, ho => simp at ho
              | j + 1, hu, ho =>
                exact Or.inr ⟨j, by omega, u, by simpa using hu, by simpa using ho, hf⟩
        · rw [List.getElem?_cons_succ]
          exact ihk.2
    · -- head chunk is kept; its fingerprint is added to the seen set
      have hproc : processChunks cfg seen (c :: cs) =
          Outcome.kept (out_content cfg c) ::
            processChunks cfg (fingerprintOf cfg c :: seen) cs := by
        simp [processChunks, stepChunk, hc, hd, hmem]
      rw [hproc]
      match k, hk with
      | 0, hk =>
        simp only [List.getElem?_cons_zero, Option.some_inj] at hk
        subst hk
        refine ⟨⟨fun h => by simp at h, ?_⟩, Or.inr (by simp)⟩
        rintro (h | ⟨j, hj, _⟩)
        · exact absurd h hmem
        · omega
      | k + 1, hk =>
        simp only [List.getElem?_cons_succ] at hk
        have ihk := ih (fingerprintOf cfg c :: seen)
          (fun x hx => hpass x (List.mem_cons_of_mem c hx)) k w hk
        refine ⟨?_, ?_⟩
        · rw [List.getElem?_cons_succ]
          rw [ihk.1]
          constructor
          · rintro (h | ⟨j, hj, u, hu, ho, hf⟩)
            · rcases List.mem_cons.mp h with h | h
              · exact Or.inr ⟨0, by omega, c, by simp, by simp, h.symm⟩
              · exact Or.inl h
            · exact Or.inr ⟨j + 1, by omega, u, by simpa using hu, by simpa using ho, hf⟩
          · rintro (h | ⟨j, hj, u, hu, ho, hf⟩)
            · exact Or.inl (List.mem_cons_of_mem _ h)
            · match j, hu, ho with
              | 0, hu, ho =>
                simp only [List.getElem?_cons_zero, Option.some_inj] at hu ho
                subst hu
                exact Or.inl (List.mem_cons.mpr (Or.inl hf.symm))
              | j + 1, hu, ho =>
                exact Or.inr ⟨j, by omega, u, by simpa using hu, by simpa using ho, hf⟩
        · rw [List.getElem?_cons_succ]
          exact ihk.2

/-- C4: with dedupe enabled and an initially empty seen-set, a hygiene-passing
chunk is dropped with reason `dedupe_exact` iff an earlier chunk was accepted
with an identical post-normalization fingerprint; the seen-set only grows; of
two chunks identical after Arabic normalization the second is dropped when
`dedupe` is on and both are kept when it is off. -/
theorem dedupe_first_occurrence_wins (cfg : PipeCfg) (hd : cfg.dedupe = true)
    (chunks : List PyStr)
    (hpass : ∀ c ∈ chunks, (hygieneDrop cfg c).1 = false) :
    (∀ (k : Nat) (w : PyStr), chunks[k]? = some w →
      (((processChunks cfg [] chunks)[k]? = some Outcome.droppedDedupe) ↔
        ∃ j : Nat, j < k ∧ ∃ u : PyStr, chunks[j]? = some u ∧
          (processChunks cfg [] chunks)[j]? =
            some (Outcome.kept (out_content cfg u)) ∧
          fingerprintOf cfg u = fingerprintOf cfg w))
  ∧ (∀ (seen : List PyStr) (c : PyStr), seen ⊆ (stepChunk cfg seen c).2)
  ∧ (∀ c1 c2, normalize_arabic c1 = normalize_arabic c2 →
      (hygieneDrop cfg c1).1 = false → (hygieneDrop cfg c2).1 = false →
      processChunks cfg [] [c1, c2] =
        [Outcome.kept (out_content cfg c1), Outcome.droppedDedupe])
  ∧ (∀ (cfg2 : PipeCfg), cfg2.dedupe = false →
      ∀ c1 c2, (hygieneDrop cfg2 c1).1 = false → (hygieneDrop cfg2 c2).1 = false →
      processChunks cfg2 [] [c1, c2] =
        [Outcome.kept (out_content cfg2 c1), Outcome.kept (out_content cfg2 c2)]) := by
  refine ⟨?_, ?_, ?_, ?_⟩
  · intro k w hk
    have h := (processChunks_dedupe_iff cfg hd chunks [] hpass k w hk).1
    rw [h]
    simp
  · intro seen c x hx
    rw [stepChunk]
    split_ifs <;> simp [hx]
  · intro c1 c2 hn h1 h2
    have hfp : fingerprintOf cfg c2 = fingerprintOf cfg c1 := by
      simp [fingerprintOf, content_fingerprint, hn]
    simp [processChunks, stepChunk, h1, h2, hd, hfp]
  · intro cfg2 hd2 c1 c2 h1 h2
    simp [processChunks, stepChunk, h1, h2, hd2]

/-- The non-letters ratio never exceeds 1 (the letters ratio is
nonnegative). -/
theorem char_ratios_nlr_le_one (U : PyCharClass) (txt : PyStr) :
    (char_ratios U txt).2.2 ≤ 1 := by
  unfold char_ratios
  split
  · norm_num
  · simp only
    have h0 : (0 : ℚ) ≤ (txt.countP U.isalpha : ℚ) / (txt.length : ℚ) := by
      positivity
    linarith

/-- A concrete run configuration used to exercise the pipeline theorems. -/
def witnessCfg : PipeCfg :=
  { U := asciiCharClass, hash := id, min_chars := 1, min_words := 1,
    digits_punct_drop := 2, movie_digits_drop := 2, dedupe := true,
    normalize := false, prepend_title := false, section_title := [] }

def witnessCfgNoDedupe : PipeCfg := { witnessCfg with dedupe := false }

/-- In the witness configuration (permissive thresholds, empty title), any
non-empty chunk of at least one word with no movie terms passes hygiene. -/
theorem hygieneDrop_witnessCfg_false (c : PyStr)
    (h1 : too_short c 1 1 = false) (h2 : arMovieSearch c = false) :
    (hygieneDrop witnessCfg c).1 = false
  ∧ (hygieneDrop witnessCfgNoDedupe c).1 = false := by
  have hnl := char_ratios_nlr_le_one asciiCharClass c
  have hrat : ¬ ((2 : ℚ) < (char_ratios asciiCharClass c).2.2) := by linarith
  have hmov : looks_like_ar_movie_subs asciiCharClass c 2 = false := by
    unfold looks_like_ar_movie_subs
    split
    · rfl
    · rw [h2]
      rfl
  constructor <;>
  · show (should_drop_chunk asciiCharClass [] c 1 1 2 2).1 = false
    unfold should_drop_chunk
    rw [if_neg (by rw [h1]; exact Bool.false_ne_true)]
    rw [if_neg (by simp [is_boilerplate_title])]
    rw [if_neg hrat, if_neg (by rw [hmov]; exact Bool.false_ne_true)]

theorem dedupe_first_occurrence_wins_witness :
    processChunks witnessCfg []
        ["كتاب الاخلاق والحكمه".toList, "كتاب الاخلاق والحكمَه".toList] =
      [Outcome.kept (out_content witnessCfg ("كتاب الاخلاق والحكمه".toList)),
       Outcome.droppedDedupe]
  ∧ processChunks witnessCfgNoDedupe []
        ["كتاب الاخلاق والحكمه".toList, "كتاب الاخلاق والحكمَه".toList] =
      [Outcome.kept (out_content witnessCfgNoDedupe ("كتاب الاخلاق والحكمه".toList)),
       Outcome.kept (out_content witnessCfgNoDedupe ("كتاب الاخلاق والحكمَه".toList))] := by
  have hpA := hygieneDrop_witnessCfg_false ("كتاب الاخلاق والحكمه".toList)
    (by decide) (by decide)
  have hpB := hygieneDrop_witnessCfg_false ("كتاب الاخلاق والحكمَه".toList)
    (by decide) (by decide)
  have h := dedupe_first_occurrence_wins witnessCfg rfl
    ["كتاب الاخلاق والحكمه".toList, "كتاب الاخلاق والحكمَه".toList]
    (by
      intro c hc
      rcases List.mem_cons.mp hc with rfl | hc
      · exact hpA.1
      rcases List.mem_cons.mp hc with rfl | hc
      · exact hpB.1
      · simp at hc)
  exact ⟨h.2.2.1 ("كتاب الاخلاق والحكمه".toList) ("كتاب الاخلاق والحكمَه".toList)
      (by decide) hpA.1 hpB.1,
    h.2.2.2 witnessCfgNoDedupe rfl ("كتاب الاخلاق والحكمه".toList)
      ("كتاب الاخلاق والحكمَه".toList) hpA.2 hpB.2⟩

/-!
## Chapter-title stitching
(scripts/txt_to_sections_en_fr.py lines 197-235, same loop in
scripts/extract_chapters.py lines 49-81)

The language-specific chapter regex is a Boolean line-matcher parameter; the
title-collection loop is translated with the running `len(title_lines)`
as an explicit counter. -/

/-- `re.sub(r"\s+\)", ")", s)`: each whitespace run directly before `)` is
removed.  `buf` holds a pending (reversed) whitespace run. -/
def fixCloseAux (buf : List Char) : List Char → List Char
  | [] => buf.reverse
  | c :: rest =>
    if pyIsSpace c then fixCloseAux (c :: buf) rest
    else if c = ')' then ')' :: fixCloseAux [] rest
    else buf.reverse ++ (c :: fixCloseAux [] rest)

def fixClose (l : List Char) : List Char := fixCloseAux [] l

/-- `re.sub(r"\(\s+", "(", s)`: whitespace runs directly after `(` are
removed. -/
def fixOpenAux : Bool → List Char → List Char
  | _, [] => []
  | ap, c :: rest =>
    if ap && pyIsSpace c then fixOpenAux true rest
    else c :: fixOpenAux (c == '(') rest

def fixOpen (l : List Char) : List Char := fixOpenAux false l

/-- `re.sub(r"\s{2,}", " ", s)`: whitespace runs of length at least two
become a single space; a lone whitespace character is left as it is. -/
def collapse2Aux : Bool → List Char → List Char
  | _, [] => []
  | true, c :: rest =>
    if pyIsSpace c then collapse2Aux true rest
    else c :: collapse2Aux false rest
  | false, c :: rest =>
    if pyIsSpace c then
      (match rest with
       | d :: _ =>
         if pyIsSpace d then ' ' :: collapse2Aux true rest
         else c :: collapse2Aux false rest
       | [] => [c])
    else c :: collapse2Aux false rest

def collapse2 (l : List Char) : List Char := collapse2Aux false l

/-- `normalize_title_lines` (txt_to_sections_en_fr.py lines 91-97). -/
def normalize_title_lines (lines : List PyStr) : PyStr :=
  pyStrip (collapse2 (fixOpen (fixClose
    (List.intercalate [' '] ((lines.map pyStrip).filter (fun l => l ≠ []))))))

/-- The `while i < len(lines)` title-collection loop following a chapter
heading (find_section_starts lines 211-228); `count` is `len(title_lines)`
so far, and the returned list is what is appended from here on. -/
def collectTitleGo (isChap : PyStr → Bool) : Nat → List PyStr → List PyStr
  | _, [] => []
  | count, l :: rest =>
    if pyStrip l = [] then
      (if count ≠ 0 then [] else collectTitleGo isChap 0 rest)
    else if isChap l then []
    else if 120 < (pyStrip l).length ∧ count ≠ 0 then []
    else if 2 ≤ count then [l]
    else l :: collectTitleGo isChap (count + 1) rest

def collectTitle (isChap : PyStr → Bool) (lines : List PyStr) : List PyStr :=
  collectTitleGo isChap 0 lines

/-- `stitched = normalize_title_lines(title_lines) or heading`
(find_section_starts line 230). -/
def stitchedTitle (isChap : PyStr → Bool) (heading : PyStr)
    (lines : List PyStr) : PyStr :=
  let t := normalize_title_lines (collectTitle isChap lines)
  if t = [] then heading else t

example :
    collectTitle (fun _ => false)
      ["".toList, " العنوان ".toList, "".toList, "نص".toList]
      = [" العنوان ".toList] := by decide

/-! ### Title-stitching lemmas -/

def nonSpace (c : Char) : Bool := !pyIsSpace c

theorem collectTitleGo_length (isChap : PyStr → Bool) :
    ∀ (lines : List PyStr) (count : Nat), count ≤ 2 →
      (collectTitleGo isChap count lines).length + count ≤ 3 := by
  intro lines
  induction lines with
  | nil => intro count h; simp [collectTitleGo]; omega
  | cons a rest ih =>
    intro count h
    unfold collectTitleGo
    by_cases hb : pyStrip a = []
    · rw [if_pos hb]
      by_cases hc0 : count ≠ 0
      · rw [if_pos hc0]; simp; omega
      · rw [if_neg hc0]
        have := ih 0 (by omega)
        omega
    · rw [if_neg hb]
      by_cases hch : isChap a = true
      · rw [if_pos hch]; simp; omega
      · rw [if_neg hch]
        by_cases h120 : 120 < (pyStrip a).length ∧ count ≠ 0
        · rw [if_pos h120]; simp; omega
        · rw [if_neg h120]
          by_cases h2 : 2 ≤ count
          · rw [if_pos h2]; simp; omega
          · rw [if_neg h2]
            have := ih (count + 1) (by omega)
            simp only [List.length_cons]
            omega

theorem collectTitleGo_mem (isChap : PyStr → Bool) :
    ∀ (lines : List PyStr) (count : Nat),
      ∀ l ∈ collectTitleGo isChap count lines,
        l ∈ lines ∧ pyStrip l ≠ [] ∧ isChap l = false := by
  intro lines
  induction lines with
  | nil => intro count l hl; simp [collectTitleGo] at hl
  | cons a rest ih =>
    intro count l hl
    unfold collectTitleGo at hl
    by_cases hb : pyStrip a = []
    · rw [if_pos hb] at hl
      by_cases hc0 : count ≠ 0
      · rw [if_pos hc0] at hl; simp at hl
      · rw [if_neg hc0] at hl
        obtain ⟨h1, h2, h3⟩ := ih 0 l hl
        exact ⟨List.mem_cons_of_mem a h1, h2, h3⟩
    · rw [if_neg hb] at hl
      by_cases hch : isChap a = true
      · rw [if_pos hch] at hl; simp at hl
      · rw [if_neg hch] at hl
        by_cases h120 : 120 < (pyStrip a).length ∧ count ≠ 0
        · rw [if_pos h120] at hl; simp at hl
        · rw [if_neg h120] at hl
          by_cases h2 : 2 ≤ count
          · rw [if_pos h2] at hl
            rw [List.mem_singleton] at hl
            subst hl
            exact ⟨List.mem_cons_self _ _, hb, by simpa using hch⟩
          · rw [if_neg h2] at hl
            rcases List.mem_cons.mp hl with rfl | hl
            · exact ⟨List.mem_cons_self _ _, hb, by simpa using hch⟩
            · obtain ⟨h1', h2', h3'⟩ := ih (count + 1) l hl
              exact ⟨List.mem_cons_of_mem a h1', h2', h3'⟩

theorem collectTitleGo_sublist (isChap : PyStr → Bool) :
    ∀ (lines : List PyStr) (count : Nat),
      List.Sublist (collectTitleGo isChap count lines) lines := by
  intro lines
  induction lines with
  | nil => intro count; simp [collectTitleGo]
  | cons a rest ih =>
    intro count
    unfold collectTitleGo
    by_cases hb : pyStrip a = []
    · rw [if_pos hb]
      by_cases hc0 : count ≠ 0
      · rw [if_pos hc0]; exact List.nil_sublist _
      · rw [if_neg hc0]
        exact (ih 0).cons a
    · rw [if_neg hb]
      by_cases hch : isChap a = true
      · rw [if_pos hch]; exact List.nil_sublist _
      · rw [if_neg hch]
        by_cases h120 : 120 < (pyStrip a).length ∧ count ≠ 0
        · rw [if_pos h120]; exact List.nil_sublist _
        · rw [if_neg h120]
          by_cases h2 : 2 ≤ count
          · rw [if_pos h2]
            exact List.Sublist.cons₂ a (List.nil_sublist rest)
          · rw [if_neg h2]
            exact (ih (count + 1)).cons₂ a

theorem collectTitleGo_le120 (isChap : PyStr → Bool) :
    ∀ (lines : List PyStr) (count : Nat), count ≠ 0 →
      ∀ l ∈ collectTitleGo isChap count lines, (pyStrip l).length ≤ 120 := by
  intro lines
  induction lines with
  | nil => intro count _ l hl; simp [collectTitleGo] at hl
  | cons a rest ih =>
    intro count hcount l hl
    unfold collectTitleGo at hl
    by_cases hb : pyStrip a = []
    · rw [if_pos hb, if_pos hcount] at hl
      simp at hl
    · rw [if_neg hb] at hl
      by_cases hch : isChap a = true
      · rw [if_pos hch] at hl; simp at hl
      · rw [if_neg hch] at hl
        by_cases h120 : 120 < (pyStrip a).length ∧ count ≠ 0
        · rw [if_pos h120] at hl; simp at hl
        · rw [if_neg h120] at hl
          have ha120 : (pyStrip a).length ≤ 120 := by
            have hnot : ¬ 120 < (pyStrip a).length :=
              fun hgt => h120 ⟨hgt, hcount⟩
            omega
          by_cases h2 : 2 ≤ count
          · rw [if_pos h2] at hl
            rw [List.mem_singleton] at hl
            subst hl
            exact ha120
          · rw [if_neg h2] at hl
            rcases List.mem_cons.mp hl with rfl | hl
            · exact ha120
            · exact ih (count + 1) (by omega) l hl

theorem collectTitleGo_tail_le120 (isChap : PyStr → Bool) :
    ∀ (lines : List PyStr) (count : Nat),
      ∀ l ∈ (collectTitleGo isChap count lines).tail,
        (pyStrip l).length ≤ 120 := by
  intro lines
  induction lines with
  | nil => intro count l hl; simp [collectTitleGo] at hl
  | cons a rest ih =>
    intro count l hl
    unfold collectTitleGo at hl
    by_cases hb : pyStrip a = []
    · rw [if_pos hb] at hl
      by_cases hc0 : count ≠ 0
      · rw [if_pos hc0] at hl; simp at hl
      · rw [if_neg hc0] at hl
        exact ih 0 l hl
    · rw [if_neg hb] at hl
      by_cases hch : isChap a = true
      · rw [if_pos hch] at hl; simp at hl
      · rw [if_neg hch] at hl
        by_cases h120 : 120 < (pyStrip a).length ∧ count ≠ 0
        · rw [if_pos h120] at hl; simp at hl
        · rw [if_neg h120] at hl
          by_cases h2 : 2 ≤ count
          · rw [if_pos h2] at hl; simp at hl
          · rw [if_neg h2] at hl
            rw [List.tail_cons] at hl
            exact collectTitleGo_le120 isChap rest (count + 1) (by omega) l hl

theorem dropWhile_head_false (p : Char → Bool) :
    ∀ (l : List Char) (c : Char) (t : List Char),
      l.dropWhile p = c :: t → p c = false := by
  intro l
  induction l with
  | nil => intro c t h; simp at h
  | cons a rest ih =>
    intro c t h
    by_cases ha : p a = true
    · rw [List.dropWhile_cons, if_pos ha] at h
      exact ih c t h
    · rw [List.dropWhile_cons, if_neg ha] at h
      injection h with h1 _
      rw [← h1]
      simpa using ha

theorem countP_dropWhile_space (l : List Char) :
    List.countP nonSpace (l.dropWhile pyIsSpace) = List.countP nonSpace l := by
  induction l with
  | nil => simp
  | cons a rest ih =>
    by_cases ha : pyIsSpace a = true
    · rw [List.dropWhile_cons, if_pos ha, ih, List.countP_cons]
      have : nonSpace a = false := by simp [nonSpace, ha]
      simp [this]
    · rw [List.dropWhile_cons, if_neg ha]

theorem countP_pyStrip (l : List Char) :
    List.countP nonSpace (pyStrip l) = List.countP nonSpace l := by
  unfold pyStrip
  rw [List.countP_reverse, countP_dropWhile_space, List.countP_reverse,
    countP_dropWhile_space]

theorem countP_fixCloseAux :
    ∀ (l : List Char) (buf : List Char), (∀ c ∈ buf, pyIsSpace c = true) →
      List.countP nonSpace (fixCloseAux buf l) = List.countP nonSpace l := by
  intro l
  induction l with
  | nil =>
    intro buf hbuf
    simp only [fixCloseAux, List.countP_reverse, List.countP_nil]
    exact List.countP_eq_zero.mpr (fun c hc => by simp [nonSpace, hbuf c hc])
  | cons a rest ih =>
    intro buf hbuf
    by_cases ha : pyIsSpace a = true
    · rw [fixCloseAux, if_pos ha, ih (a :: buf) ?hb, List.countP_cons]
      · simp [nonSpace, ha]
      case hb =>
        intro c hc
        rcases List.mem_cons.mp hc with rfl | hc
        · exact ha
        · exact hbuf c hc
    · by_cases hp : a = ')'
      · subst hp
        rw [fixCloseAux, if_neg ha, if_pos rfl, List.countP_cons,
          List.countP_cons, ih [] (by simp)]
      · rw [fixCloseAux, if_neg ha, if_neg hp, List.countP_append,
          List.countP_cons, List.countP_cons, ih [] (by simp)]
        have h0 : List.countP nonSpace buf.reverse = 0 := by
          rw [List.countP_reverse]
          exact List.countP_eq_zero.mpr (fun c hc => by simp [nonSpace, hbuf c hc])
        rw [h0]
        omega

theorem countP_fixOpenAux :
    ∀ (l : List Char) (fl : Bool),
      List.countP nonSpace (fixOpenAux fl l) = List.countP nonSpace l := by
  intro l
  induction l with
  | nil => intro fl; rfl
  | cons a rest ih =>
    intro fl
    by_cases hfa : (fl && pyIsSpace a) = true
    · rw [fixOpenAux, if_pos hfa, ih true, List.countP_cons]
      have : nonSpace a = false := by
        simp only [Bool.and_eq_true] at hfa
        simp [nonSpace, hfa.2]
      simp [this]
    · rw [fixOpenAux, if_neg hfa, List.countP_cons, List.countP_cons, ih]

theorem countP_collapse2Aux_bounded :
    ∀ (n : Nat) (l : List Char), l.length ≤ n → ∀ fl : Bool,
      List.countP nonSpace (collapse2Aux fl l) = List.countP nonSpace l := by
  intro n
  induction n with
  | zero =>
    intro l hl fl
    have hnil : l = [] := List.length_eq_zero.mp (by omega)
    subst hnil
    cases fl <;> rfl
  | succ n ih =>
    intro l hl fl
    cases l with
    | nil => cases fl <;> rfl
    | cons a rest =>
      simp only [List.length_cons] at hl
      cases fl with
      | true =>
        by_cases ha : pyIsSpace a = true
        · simp only [collapse2Aux, if_pos ha]
          rw [ih rest (by omega) true, List.countP_cons]
          simp [nonSpace, ha]
        · simp only [collapse2Aux, if_neg ha]
          rw [List.countP_cons, List.countP_cons, ih rest (by omega) false]
      | false =>
        by_cases ha : pyIsSpace a = true
        · cases rest with
          | nil => simp only [collapse2Aux, if_pos ha]
          | cons d t =>
            have h2 : nonSpace a = false := by simp [nonSpace, ha]
            by_cases hd : pyIsSpace d = true
            · have h3 : nonSpace d = false := by simp [nonSpace, hd]
              simp only [collapse2Aux, if_pos ha, if_pos hd]
              rw [List.countP_cons, ih t (by simp at hl; omega) true]
              have h1 : nonSpace ' ' = false := rfl
              simp [List.countP_cons, h1, h2, h3]
            · have h3 : nonSpace d = true := by simp [nonSpace, hd]
              simp only [collapse2Aux, if_pos ha, if_neg hd]
              rw [List.countP_cons, List.countP_cons,
                ih t (by simp at hl; omega) false]
              simp [List.countP_cons]
        · simp only [collapse2Aux, if_neg ha]
          rw [List.countP_cons, List.countP_cons, ih rest (by omega) false]

theorem countP_collapse2Aux (l : List Char) (fl : Bool) :
    List.countP nonSpace (collapse2Aux fl l) = List.countP nonSpace l :=
  countP_collapse2Aux_bounded l.length l (le_refl _) fl

theorem intercalate_cons₂ (sep y z : List Char) (ys : List (List Char)) :
    List.intercalate sep (y :: z :: ys) =
      y ++ sep ++ List.intercalate sep (z :: ys) := by
  simp [List.intercalate, List.intersperse]

theorem mem_intercalate_space :
    ∀ (ll : List (List Char)) (x : List Char), x ∈ ll →
      ∀ c ∈ x, c ∈ List.intercalate [' '] ll := by
  intro ll
  induction ll with
  | nil => simp
  | cons y ys ih =>
    intro x hx c hc
    rcases List.mem_cons.mp hx with rfl | hx
    · cases ys with
      | nil => simpa [List.intercalate, List.intersperse] using hc
      | cons z zs =>
        rw [intercalate_cons₂]
        simp only [List.append_assoc, List.mem_append]
        exact Or.inl hc
    · cases ys with
      | nil => simp at hx
      | cons z zs =>
        rw [intercalate_cons₂]
        simp only [List.append_assoc, List.mem_append]
        exact Or.inr (Or.inr (ih x hx c hc))

theorem exists_nonSpace_of_pyStrip_ne_nil (l : PyStr) (h : pyStrip l ≠ []) :
    ∃ c ∈ pyStrip l, nonSpace c = true := by
  rw [pyStrip] at h ⊢
  cases hu : (l.dropWhile pyIsSpace).reverse.dropWhile pyIsSpace with
  | nil => rw [hu] at h; simp at h
  | cons c t =>
    have hc := dropWhile_head_false pyIsSpace _ c t hu
    refine ⟨c, ?_, by simp [nonSpace, hc]⟩
    simp

theorem normalize_title_lines_ne_nil (lines : List PyStr) (hne : lines ≠ [])
    (hall : ∀ l ∈ lines, pyStrip l ≠ []) :
    normalize_title_lines lines ≠ [] := by
  obtain ⟨l₀, hl₀⟩ := List.exists_mem_of_ne_nil lines hne
  obtain ⟨c, hcm, hcn⟩ := exists_nonSpace_of_pyStrip_ne_nil l₀ (hall l₀ hl₀)
  have hmemf : pyStrip l₀ ∈ (lines.map pyStrip).filter (fun l => l ≠ []) :=
    List.mem_filter.mpr ⟨List.mem_map_of_mem pyStrip hl₀,
      by simpa using hall l₀ hl₀⟩
  have hcJ : c ∈ List.intercalate [' ']
      ((lines.map pyStrip).filter (fun l => l ≠ [])) :=
    mem_intercalate_space _ _ hmemf c hcm
  have hpos : 0 < List.countP nonSpace (List.intercalate [' ']
      ((lines.map pyStrip).filter (fun l => l ≠ []))) :=
    List.countP_pos_iff.mpr ⟨c, hcJ, hcn⟩
  have hcount : List.countP nonSpace (normalize_title_lines lines) =
      List.countP nonSpace (List.intercalate [' ']
        ((lines.map pyStrip).filter (fun l => l ≠ []))) := by
    unfold normalize_title_lines
    rw [countP_pyStrip]
    unfold collapse2 fixOpen fixClose
    rw [countP_collapse2Aux, countP_fixOpenAux, countP_fixCloseAux _ [] (by simp)]
  intro hnil
  rw [hnil, List.countP_nil] at hcount
  omega

/-- C8: after a chapter-heading line, the stitched title comes from at most 3
subsequent non-blank, non-chapter lines (every collected line after the first
is at most 120 characters once stripped), collected in order from the
following lines; when no title lines are collected the heading itself becomes
the title, and otherwise the joined collected lines do. -/
theorem title_stitching_spec (isChap : PyStr → Bool) (heading : PyStr)
    (lines : List PyStr) :
    (collectTitle isChap lines).length ≤ 3
  ∧ List.Sublist (collectTitle isChap lines) lines
  ∧ (∀ l ∈ collectTitle isChap lines, pyStrip l ≠ [] ∧ isChap l = false)
  ∧ (∀ l ∈ (collectTitle isChap lines).tail, (pyStrip l).length ≤ 120)
  ∧ (collectTitle isChap lines = [] →
      stitchedTitle isChap heading lines = heading)
  ∧ (collectTitle isChap lines ≠ [] →
      stitchedTitle isChap heading lines =
        normalize_title_lines (collectTitle isChap lines)
      ∧ stitchedTitle isChap heading lines ≠ []) := by
  refine ⟨?_, collectTitleGo_sublist isChap lines 0,
    fun l hl => ((collectTitleGo_mem isChap lines 0 l hl).2),
    collectTitleGo_tail_le120 isChap lines 0, ?_, ?_⟩
  · have := collectTitleGo_length isChap lines 0 (by omega)
    rw [collectTitle]
    omega
  · intro h
    rw [stitchedTitle, h]
    simp [normalize_title_lines, List.intercalate, List.intersperse,
      fixClose, fixCloseAux, fixOpen, fixOpenAux, collapse2, collapse2Aux,
      pyStrip]
  · intro h
    have hnn : normalize_title_lines (collectTitle isChap lines) ≠ [] :=
      normalize_title_lines_ne_nil _ h
        (fun l hl => (collectTitleGo_mem isChap lines 0 l hl).2.1)
    rw [stitchedTitle, if_neg hnn]
    exact ⟨rfl, hnn⟩

theorem title_stitching_spec_witness :
    stitchedTitle (fun _ => false) ("الفصل الأول".toList)
        ["العنوان  الكبير".toList] =
      normalize_title_lines ["العنوان  الكبير".toList] := by
  have h := title_stitching_spec (fun _ => false) ("الفصل الأول".toList)
    ["العنوان  الكبير".toList]
  exact (h.2.2.2.2.2 (by decide)).1

/-!
## The shared hygiene module (scripts/hygiene.py)

Module-level code compiles seven regular expressions in order:
`TITLE_PATTERNS` (en, fr, ar), `AR_MOVIE_TERMS`, `LETTER_RE`, `DIGIT_RE`,
`PUNCT_RE`.  `LETTER_RE` is `re.compile(r"\p{L}", re.UNICODE)`, and Python's
`re` module rejects the escape `\p` (`bad escape \p`), so importing the
module raises before any function in it can be called.  The escape
validation of `re.compile` is modelled by a scan for backslash followed by
an ASCII letter outside the supported escape set.
-/

/-- The ASCII letters that are valid after a backslash in a Python `re`
pattern (`\A \b \B \d \D \s \S \w \W \Z \a \f \n \r \t \v \x \u \U \N`). -/
def reAllowedEscapeLetters : List Char :=
  ['A', 'b', 'B', 'd', 'D', 's', 'S', 'w', 'W', 'Z',
   'a', 'f', 'n', 'r', 't', 'v', 'x', 'u', 'U', 'N']

/-- Does every backslash escape in the pattern use a supported letter?
A backslash before an unsupported ASCII letter (such as `\p`) or a trailing
backslash makes `re.compile` raise `re.error`. -/
def reEscapesOk : List Char → Bool
  | [] => true
  | '\\' :: c :: rest =>
    if c.isAlpha && !(reAllowedEscapeLetters.contains c) then false
    else reEscapesOk rest
  | ['\\'] => false
  | _ :: rest => reEscapesOk rest

/-- The pattern of `LETTER_RE`: `\p{L}`. -/
def letterRePattern : PyStr := ['\\', 'p', '{', 'L', '}']

/-- The seven patterns hygiene.py compiles at import time, in source order. -/
def hygienePatterns : List PyStr :=
  ["(cover|about this text|acknowledg|table of contents|index|bibliograph|copyright|license)".toList,
   "(couverture|à propos|remerciements|sommaire|table des matières|bibliograph|droits|licen[cs]e)".toList,
   "(الفهرس|شكر(?:\\s*وتقدير)?|المحتويات|الخاتمة|المراجع|حقوق|ترخيص)".toList,
   "(ترميناتور|تي\\s*٢|تي2|T2|ترميناتور\\s*2)".toList,
   letterRePattern,
   "\\d".toList,
   "[^\\w\\s]".toList]

/-- Importing hygiene.py: compile each module-level pattern in order; the
first rejected pattern aborts the import with that pattern as the error. -/
def hygieneModuleLoad : Except PyStr Unit :=
  match hygienePatterns.find? (fun p => !reEscapesOk p) with
  | some p => Except.error p
  | none => Except.ok ()

/-- `MIN_CHARS` of hygiene.py (`{"en": 50, "fr": 50, "ar": 60}`, default 50
via `.get(lang, 50)`). -/
def hyMinChars (lang : String) : Nat :=
  if lang = "en" then 50 else if lang = "fr" then 50
  else if lang = "ar" then 60 else 50

/-- `too_short` of hygiene.py (lines 47-51), with `MIN_WORDS = 6`. -/
def hy_too_short (lang : String) (content : PyStr) : Bool :=
  if content = [] then true
  else if content.length < hyMinChars lang then true
  else if (pySplit content).length < 6 then true
  else false

/-- The `should_drop_chunk` body of hygiene.py (lines 58-68), had the module
loaded: the same rule order as chunk_ar.py with the module-level thresholds.
The per-language `TITLE_PATTERNS` search is a Boolean parameter `titleHit`
because the compiled patterns never come into existence. -/
def hy_should_drop_chunk_body (U : PyCharClass)
    (titleHit : String → PyStr → Bool) (lang : String)
    (section_title content : PyStr) : Bool × String :=
  if hy_too_short lang content then (true, "too_short")
  else if titleHit lang section_title then (true, "boilerplate_title")
  else if (3 / 5 : ℚ) < (char_ratios U content).2.2 then
    (true, "digits_punct_heavy")
  else if lang = "ar" && (arMovieSearch content &&
      decide ((3 / 10 : ℚ) < (char_ratios U content).2.1)) then
    (true, "ar_movie_subs")
  else (false, "")

/-- Calling `hygiene.char_ratios`: the module must have been imported
first. -/
def hygiene_char_ratios (U : PyCharClass) (txt : PyStr) :
    Except PyStr (ℚ × ℚ × ℚ) :=
  match hygieneModuleLoad with
  | Except.error e => Except.error e
  | Except.ok _ => Except.ok (char_ratios U txt)

/-- Calling `hygiene.should_drop_chunk`: the module must have been imported
first. -/
def hygiene_should_drop_chunk (U : PyCharClass)
    (titleHit : String → PyStr → Bool) (lang : String)
    (section_title content : PyStr) : Except PyStr (Bool × String) :=
  match hygieneModuleLoad with
  | Except.error e => Except.error e
  | Except.ok _ =>
    Except.ok (hy_should_drop_chunk_body U titleHit lang section_title content)

/-- C9: hygiene.py is not evaluable: `LETTER_RE`'s pattern `\p{L}` is
rejected by Python's `re` escape validation, so the module import fails
there (all patterns before it are accepted), and consequently every call to
the module's `char_ratios` or `should_drop_chunk` errors instead of
returning a decision. -/
theorem hygiene_module_not_loadable :
    reEscapesOk letterRePattern = false
  ∧ (∀ p ∈ hygienePatterns, p ≠ letterRePattern → reEscapesOk p = true)
  ∧ hygieneModuleLoad = Except.error letterRePattern
  ∧ (∀ (U : PyCharClass) (txt : PyStr),
      hygiene_char_ratios U txt = Except.error letterRePattern)
  ∧ (∀ (U : PyCharClass) (titleHit : String → PyStr → Bool) (lang : String)
      (t c : PyStr),
      hygiene_should_drop_chunk U titleHit lang t c =
        Except.error letterRePattern) := by
  have hload : hygieneModuleLoad = Except.error letterRePattern := rfl
  refine ⟨by decide, by decide, hload, ?_, ?_⟩
  · intro U txt
    rw [hygiene_char_ratios, hload]
  · intro U titleHit lang t c
    rw [hygiene_should_drop_chunk, hload]

theorem hygiene_module_not_loadable_witness :
    reEscapesOk ("\\d".toList) = true
  ∧ hygieneModuleLoad = Except.error letterRePattern := by
  have h := hygiene_module_not_loadable
  exact ⟨h.2.1 ("\\d".toList) (by decide) (by decide), h.2.2.1⟩

end Polyglot
